import Mathlib

/-
Verification of the attendance-calculator core (src/attendance_tracker.py)
against its natural-language specification.

Shallow embedding conventions:
- Python non-negative integer counters are modelled as `Nat`.
- Python float arithmetic on small count ratios is modelled as `Rat`
  (the code only compares such ratios against 75, which is exact here).
- Python `None` results are modelled as `Option.none`.
- Python strings (subject labels, day names, cell contents) are modelled
  as `List Char`; `str.strip` becomes `pyStrip`, `str.lower` becomes
  `pyLower`, the `in` substring test becomes `strContains`,
  `str.replace(' ', '')` becomes dropping space characters, and
  `str.startswith` becomes `List.isPrefixOf`.
- The `while` loop of `classes_needed_to_reach_75` is modelled by
  well-founded recursion on `total + 1 - (present + need)`, exactly the
  quantity the loop guard bounds; the `for i in range(remaining + 1)`
  loop of `classes_can_miss` is modelled by structural recursion on the
  number of remaining range elements.
- `weekday_counts` (a Python dict) is modelled as a total function
  sending absent keys to 0; the code's `if day in weekday_counts:
  total += weekday_counts[day]` and `weekday_counts.get(day, 0)` both
  coincide with always adding that function's value.
-/

/-! ## Threshold Calculator (pure arithmetic) -/

/-- `attendance_percentage(present, absent, total)` from the source:
`total_classes = min(present + absent, total)`, returning `0.0` when that
is `0` and `present / total_classes * 100` otherwise. -/
def attendance_percentage (present absent total : ℕ) : ℚ :=
  if min (present + absent) total = 0 then 0
  else (present : ℚ) / (min (present + absent) total : ℕ) * 100

/-- The percentage computed inside the `classes_can_miss` loop at scan
index `i`: `present / (present + absent + i) * 100` when the denominator
is positive, else `100`. -/
def perc_miss (present absent i : ℕ) : ℚ :=
  if 0 < present + absent + i then
    (present : ℚ) / ((present : ℚ) + (absent : ℚ) + (i : ℚ)) * 100
  else 100

/-- The `for i in range(remaining + 1)` loop of `classes_can_miss`:
`steps` is the number of range elements left, `i` the current index,
`acc` the running `can_miss` value; success records `acc := i` and
continues, failure breaks returning `acc`. -/
def canMissLoop (present absent : ℕ) : ℕ → ℕ → ℕ → ℕ
  | 0, _, acc => acc
  | steps + 1, i, acc =>
      if 75 ≤ perc_miss present absent i then
        canMissLoop present absent steps (i + 1) i
      else acc

/-- `classes_can_miss(present, absent, total)` from the source: scan
`i = 0 .. remaining` (with `remaining = total - (present + absent)`),
keep the last `i` whose percentage stays at or above 75, break at the
first failure. -/
def classes_can_miss (present absent total : ℕ) : ℕ :=
  canMissLoop present absent (total - (present + absent) + 1) 0 0

/-- The percentage computed inside the `classes_needed_to_reach_75` loop
at counter `need`: `(present + need) / (present + absent + need) * 100`
when the denominator is positive, else `0`. -/
def perc_need (present absent need : ℕ) : ℚ :=
  if 0 < present + absent + need then
    ((present : ℚ) + (need : ℚ)) / ((present : ℚ) + (absent : ℚ) + (need : ℚ)) * 100
  else 0

/-- The `while (attended + need) <= total` loop of
`classes_needed_to_reach_75`: return `some need` at the first counter
whose percentage reaches 75, `none` once the guard fails. -/
def needLoop (present absent total need : ℕ) : Option ℕ :=
  if present + need ≤ total then
    if 75 ≤ perc_need present absent need then some need
    else needLoop present absent total (need + 1)
  else none
termination_by total + 1 - (present + need)
decreasing_by omega

/-- `classes_needed_to_reach_75(present, absent, total)` from the source;
`none` models the Python `None` ("unreachable") result. -/
def classes_needed_to_reach_75 (present absent total : ℕ) : Option ℕ :=
  needLoop present absent total 0

/-- Fuel-indexed model of the same `while` loop, used to express that the
loop terminates within a bounded number of guard checks: `none` means the
fuel ran out, `some r` that the loop finished with result `r`. -/
def needFuel (present absent total : ℕ) : ℕ → ℕ → Option (Option ℕ)
  | 0, _ => none
  | fuel + 1, need =>
      if present + need ≤ total then
        if 75 ≤ perc_need present absent need then some (some need)
        else needFuel present absent total fuel (need + 1)
      else some none

/-- Fuel-indexed model of the `classes_can_miss` scan over
`i = 0 .. rem`, used to express that the scan completes within
`rem + 2` checks: `none` means the fuel ran out. -/
def canMissFuel (present absent rem : ℕ) : ℕ → ℕ → ℕ → Option ℕ
  | 0, _, _ => none
  | fuel + 1, i, acc =>
      if i ≤ rem then
        if 75 ≤ perc_miss present absent i then
          canMissFuel present absent rem fuel (i + 1) i
        else some acc
      else some acc

/-! ## Python string primitives on `List Char` -/

/-- A Python string, as its sequence of code points. -/
abbrev Str := List Char

/-- Python `str.strip()`: remove leading and trailing whitespace. -/
def pyStrip (s : Str) : Str :=
  ((s.dropWhile Char.isWhitespace).reverse.dropWhile Char.isWhitespace).reverse

/-- Python `str.lower()` (ASCII case folding, all the source needs). -/
def pyLower (s : Str) : Str := s.map Char.toLower

/-- Python `str.upper()` (ASCII case folding, all the source needs). -/
def pyUpper (s : Str) : Str := s.map Char.toUpper

/-- Python `pat in text` substring membership. -/
def strContains (text pat : Str) : Bool :=
  match text with
  | [] => pat.isEmpty
  | _ :: rest => pat.isPrefixOf text || strContains rest pat

/-- `'lab' in s.lower()` from the source: the lab-subject detector. -/
def isLab (s : Str) : Bool := strContains (pyLower s) (("lab").data)

/-- `s.replace(' ', '').upper().startswith('TCS-502')` from the source:
the subject singled out for the doubling multiplier. -/
def isTCS502 (s : Str) : Bool :=
  (("TCS-502").data).isPrefixOf (pyUpper (s.filter (fun c => c != ' ')))

/-- A timetable cell is skipped when, after stripping, it is empty or the
`break` sentinel (case-insensitively); this is the negation of the
source's `if s and s.lower() != 'break'`. -/
def skippedCell (s : Str) : Prop := s = [] ∨ pyLower s = ("break").data

instance (s : Str) : Decidable (skippedCell s) := by
  unfold skippedCell; infer_instance

/-! ## Schedule Deriver -/

/-- One timetable row: the weekday name from the first column and the
per-period cells from the remaining columns. -/
structure TRow where
  day : Str
  cells : List Str
deriving DecidableEq

/-- The per-row scan of the source (lines 60–77): walk the period cells
with `prev_subj` (`none` after an empty/break cell), and emit
`(label, col)` when a lab-labelled cell is not a continuation of the same
lab in the immediately preceding period. `idx` is the 1-based column
index (`enumerate(..., 1)` in the source). -/
def labScan : List Str → Option Str → ℕ → List (Str × ℕ)
  | [], _, _ => []
  | c :: rest, prev, idx =>
      if skippedCell (pyStrip c) then labScan rest none (idx + 1)
      else if isLab (pyStrip c) then
        if prev = some (pyStrip c) then labScan rest (some (pyStrip c)) (idx + 1)
        else (pyStrip c, idx) :: labScan rest (some (pyStrip c)) (idx + 1)
      else labScan rest (some (pyStrip c)) (idx + 1)

/-- The column indices at which the scan opens a session of lab subject
`s` in one row. -/
def rowLabCols (s : Str) (cells : List Str) : List ℕ :=
  ((labScan cells none 1).filter (fun p => p.1 = s)).map Prod.snd

/-- `subject_lab_sessions[s]` from the source: the set of
`(day, start_col)` pairs recorded for lab subject `s` across all rows. -/
def subject_lab_sessions (tt : List TRow) (s : Str) : Finset (Str × ℕ) :=
  (tt.flatMap (fun r => (rowLabCols s r.cells).map (fun j => (r.day, j)))).toFinset

/-- Whether a row's cells mention `s` as a (stripped) non-break,
non-empty, non-lab cell — the condition under which the source adds the
row's day to `subject_days[s]`. -/
def rowHasNonLab (s : Str) (cells : List Str) : Bool :=
  cells.any (fun c =>
    pyStrip c = s && !(decide (skippedCell (pyStrip c))) && !(isLab (pyStrip c)))

/-- `subject_days[s]` from the source: the set of weekday names on whose
row `s` occurs as a non-lab cell. -/
def subject_days (tt : List TRow) (s : Str) : Finset Str :=
  ((tt.filter (fun r => rowHasNonLab s r.cells)).map (fun r => r.day)).toFinset

/-- `subject_total_classes[s]` from the source (lines 80–97): for a lab
subject, the sum of the weekday occurrence counts over its recorded
sessions; otherwise the sum over its day-set, doubled afterwards for the
`TCS-502` subject. -/
def subject_total_classes (tt : List TRow) (wc : Str → ℕ) (s : Str) : ℕ :=
  if isLab s then (subject_lab_sessions tt s).sum (fun p => wc p.1)
  else ((subject_days tt s).sum wc) * (if isTCS502 s then 2 else 1)

/-- Spec-side notion for lab counting, following the specification's
words: the 1-based column indices at which a *maximal run* of consecutive
cells stripping to `s` begins. `inRun` records whether the previous cell
already stripped to `s`. -/
def runStartsAux (s : Str) : List Str → ℕ → Bool → List ℕ
  | [], _, _ => []
  | c :: rest, idx, inRun =>
      if pyStrip c = s then
        if inRun then runStartsAux s rest (idx + 1) true
        else idx :: runStartsAux s rest (idx + 1) true
      else runStartsAux s rest (idx + 1) false

/-- Spec-side notion: the start columns of the maximal runs of label `s`
in one row. -/
def runStarts (s : Str) (cells : List Str) : List ℕ :=
  runStartsAux s cells 1 false

/-- The subject universe from the source (lines 39–45): the distinct
stripped, non-empty, non-break cell labels, sorted. -/
def subjectsOf (tt : List TRow) : List Str :=
  ((((tt.flatMap (fun r => r.cells)).map pyStrip).filter
    (fun x => !(decide (skippedCell x)))).toFinset).sort (· ≤ ·)

/-! ## Attendance Ledger -/

/-- The `Present` / `Absent` button handler (lines 164–174) and the per-
subject body of the bulk handlers (lines 273–287): increment `present`
by one only when `present + absent < total` for that subject, otherwise
leave the state unchanged. -/
def recordPresent (total : Str → ℕ) (st : Str → ℕ × ℕ) (s : Str) : Str → ℕ × ℕ :=
  if (st s).1 + (st s).2 < total s then
    Function.update st s ((st s).1 + 1, (st s).2)
  else st

/-- Same as `recordPresent` for the `absent` counter. -/
def recordAbsent (total : Str → ℕ) (st : Str → ℕ × ℕ) (s : Str) : Str → ℕ × ℕ :=
  if (st s).1 + (st s).2 < total s then
    Function.update st s ((st s).1, (st s).2 + 1)
  else st

/-- The ledger mutations exposed by the UI: single increments, the two
whole-day bulk markings, and the reset button. -/
inductive LedgerOp where
  | markPresent (s : Str)
  | markAbsent (s : Str)
  | bulkPresent (l : List Str)
  | bulkAbsent (l : List Str)
  | resetAll

/-- Apply one ledger mutation; the bulk operations apply the same capped
increment to each listed subject in order, as the source's `for` loops
do. -/
def applyOp (total : Str → ℕ) (st : Str → ℕ × ℕ) : LedgerOp → (Str → ℕ × ℕ)
  | .markPresent s => recordPresent total st s
  | .markAbsent s => recordAbsent total st s
  | .bulkPresent l => l.foldl (recordPresent total) st
  | .bulkAbsent l => l.foldl (recordAbsent total) st
  | .resetAll => fun _ => (0, 0)

/-- Apply a sequence of ledger mutations. -/
def applyOps (total : Str → ℕ) (st : Str → ℕ × ℕ) (ops : List LedgerOp) : Str → ℕ × ℕ :=
  ops.foldl (applyOp total) st

/-- The ledger invariant of the specification: per subject,
`present + absent ≤ totalExpectedClasses`. -/
def LedgerInv (total : Str → ℕ) (st : Str → ℕ × ℕ) : Prop :=
  ∀ s, (st s).1 + (st s).2 ≤ total s

/-! ## Helper lemmas: threshold arithmetic -/

lemma perc_need_eq (p a n : ℕ) :
    perc_need p a n = ((p : ℚ) + n) / ((p : ℚ) + a + n) * 100 := by
  unfold perc_need
  rcases Nat.eq_zero_or_pos (p + a + n) with h | h
  · obtain ⟨hp, ha, hn⟩ : p = 0 ∧ a = 0 ∧ n = 0 := by omega
    subst hp; subst ha; subst hn; norm_num
  · rw [if_pos h]

lemma perc_miss_le_100 (p a i : ℕ) : perc_miss p a i ≤ 100 := by
  unfold perc_miss
  split
  · rename_i h
    have hd : (0 : ℚ) < (p : ℚ) + a + i := by exact_mod_cast h
    have hp : (p : ℚ) ≤ (p : ℚ) + a + i := by
      nlinarith [Nat.cast_nonneg (α := ℚ) a, Nat.cast_nonneg (α := ℚ) i]
    have h1 : (p : ℚ) / ((p : ℚ) + a + i) ≤ 1 := (div_le_one hd).mpr hp
    nlinarith
  · exact le_refl 100

lemma perc_miss_antitone (p a : ℕ) {i j : ℕ} (h : i ≤ j) :
    perc_miss p a j ≤ perc_miss p a i := by
  rcases Nat.eq_zero_or_pos (p + a + i) with hi | hi
  · have h100 : perc_miss p a i = 100 := by
      unfold perc_miss; rw [if_neg (by omega)]
    rw [h100]
    exact perc_miss_le_100 p a j
  · have hj : 0 < p + a + j := by omega
    unfold perc_miss
    rw [if_pos hi, if_pos hj]
    have hdi : (0 : ℚ) < (p : ℚ) + a + i := by exact_mod_cast hi
    have hdj : (0 : ℚ) < (p : ℚ) + a + j := by exact_mod_cast hj
    have hij : (p : ℚ) + a + i ≤ (p : ℚ) + a + j := by
      have : (i : ℚ) ≤ (j : ℚ) := by exact_mod_cast h
      linarith
    gcongr

/-! ## Helper lemmas: loop models -/

lemma needFuel_eq (p a t : ℕ) :
    ∀ fuel need, t + 1 ≤ p + need + fuel →
      needFuel p a t (fuel + 1) need = some (needLoop p a t need) := by
  intro fuel
  induction fuel with
  | zero =>
      intro need h
      rw [needLoop]
      simp only [needFuel]
      rw [if_neg (by omega), if_neg (by omega)]
  | succ fuel ih =>
      intro need h
      by_cases hg : p + need ≤ t
      · by_cases hp : 75 ≤ perc_need p a need
        · rw [needLoop]
          simp only [needFuel]
          rw [if_pos hg, if_pos hp, if_pos hg, if_pos hp]
        · rw [needLoop]
          simp only [needFuel]
          rw [if_pos hg, if_neg hp, if_pos hg, if_neg hp]
          exact ih (need + 1) (by omega)
      · rw [needLoop]
        simp only [needFuel]
        rw [if_neg hg, if_neg hg]

lemma classes_needed_eval (p a t : ℕ) (r : Option ℕ)
    (h : needFuel p a t (t + 2) 0 = some r) :
    classes_needed_to_reach_75 p a t = r := by
  have he := needFuel_eq p a t (t + 1) 0 (by omega)
  rw [show t + 1 + 1 = t + 2 from rfl] at he
  rw [he] at h
  exact Option.some.inj h |>.symm ▸ rfl

lemma canMissFuel_eq (p a rem : ℕ) :
    ∀ fuel i acc, rem + 1 ≤ i + fuel →
      canMissFuel p a rem (fuel + 1) i acc = some (canMissLoop p a (rem + 1 - i) i acc) := by
  intro fuel
  induction fuel with
  | zero =>
      intro i acc h
      have hi : ¬ i ≤ rem := by omega
      have hz : rem + 1 - i = 0 := by omega
      rw [hz]
      simp only [canMissFuel, canMissLoop]
      rw [if_neg hi]
  | succ fuel ih =>
      intro i acc h
      by_cases hi : i ≤ rem
      · have hsteps : rem + 1 - i = (rem - i) + 1 := by omega
        rw [hsteps]
        by_cases hp : 75 ≤ perc_miss p a i
        · simp only [canMissFuel, canMissLoop]
          rw [if_pos hi, if_pos hp, if_pos hp]
          have h2 := ih (i + 1) i (by omega)
          rw [show rem - i = rem + 1 - (i + 1) from by omega]
          exact h2
        · simp only [canMissFuel, canMissLoop]
          rw [if_pos hi, if_neg hp, if_neg hp]
      · have hz : rem + 1 - i = 0 := by omega
        rw [hz]
        simp only [canMissFuel, canMissLoop]
        rw [if_neg hi]

lemma needFuel_some_spec (p a t : ℕ) :
    ∀ fuel need n, needFuel p a t fuel need = some (some n) →
      need ≤ n ∧ p + n ≤ t ∧ 75 ≤ perc_need p a n ∧
        ∀ m, need ≤ m → m < n → perc_need p a m < 75 := by
  intro fuel
  induction fuel with
  | zero => intro need n h; simp [needFuel] at h
  | succ fuel ih =>
      intro need n h
      simp only [needFuel] at h
      by_cases hg : p + need ≤ t
      · rw [if_pos hg] at h
        by_cases hp : 75 ≤ perc_need p a need
        · rw [if_pos hp] at h
          obtain rfl : need = n := by
            have := Option.some.inj h
            exact Option.some.inj this
          exact ⟨le_refl _, hg, hp, fun m h1 h2 => absurd h2 (by omega)⟩
        · rw [if_neg hp] at h
          obtain ⟨h1, h2, h3, h4⟩ := ih (need + 1) n h
          refine ⟨by omega, h2, h3, fun m hm1 hm2 => ?_⟩
          rcases Nat.eq_or_lt_of_le hm1 with rfl | hlt
          · exact lt_of_not_le hp
          · exact h4 m hlt hm2
      · rw [if_neg hg] at h
        exact absurd (Option.some.inj h) (by simp)

lemma needFuel_none_spec (p a t : ℕ) :
    ∀ fuel need, needFuel p a t fuel need = some none →
      ∀ m, need ≤ m → p + m ≤ t → perc_need p a m < 75 := by
  intro fuel
  induction fuel with
  | zero => intro need h; simp [needFuel] at h
  | succ fuel ih =>
      intro need h m hm1 hm2
      simp only [needFuel] at h
      by_cases hg : p + need ≤ t
      · rw [if_pos hg] at h
        by_cases hp : 75 ≤ perc_need p a need
        · rw [if_pos hp] at h
          exact absurd (Option.some.inj h) (by simp)
        · rw [if_neg hp] at h
          rcases Nat.eq_or_lt_of_le hm1 with rfl | hlt
          · exact lt_of_not_le hp
          · exact ih (need + 1) h m hlt hm2
      · rw [if_neg hg] at h
        omega

lemma canMissLoop_ge_acc (p a : ℕ) :
    ∀ steps i acc, acc ≤ i → acc ≤ canMissLoop p a steps i acc := by
  intro steps
  induction steps with
  | zero => intro i acc h; simp only [canMissLoop]; exact le_refl acc
  | succ steps ih =>
      intro i acc h
      simp only [canMissLoop]
      split
      · exact le_trans h (ih (i + 1) i (by omega))
      · exact le_refl acc

lemma canMissLoop_max (p a : ℕ) :
    ∀ steps i acc k, i ≤ k → k < i + steps → 75 ≤ perc_miss p a k →
      k ≤ canMissLoop p a steps i acc := by
  intro steps
  induction steps with
  | zero => intro i acc k h1 h2 _; omega
  | succ steps ih =>
      intro i acc k h1 h2 h3
      simp only [canMissLoop]
      by_cases hp : 75 ≤ perc_miss p a i
      · rw [if_pos hp]
        rcases Nat.eq_or_lt_of_le h1 with rfl | hlt
        · exact canMissLoop_ge_acc p a steps (i + 1) i (by omega)
        · exact ih (i + 1) i k hlt (by omega) h3
      · exact absurd (le_trans h3 (perc_miss_antitone p a h1)) hp

lemma canMissLoop_sat (p a : ℕ) :
    ∀ steps i acc, (75 ≤ perc_miss p a acc ∨ acc = 0) →
      (75 ≤ perc_miss p a (canMissLoop p a steps i acc) ∨ canMissLoop p a steps i acc = 0) := by
  intro steps
  induction steps with
  | zero => intro i acc h; simpa only [canMissLoop] using h
  | succ steps ih =>
      intro i acc h
      simp only [canMissLoop]
      by_cases hp : 75 ≤ perc_miss p a i
      · rw [if_pos hp]
        exact ih (i + 1) i (Or.inl hp)
      · rw [if_neg hp]
        exact h

lemma canMissLoop_ub (p a : ℕ) :
    ∀ steps i acc n, acc ≤ n → i + steps ≤ n + 1 → canMissLoop p a steps i acc ≤ n := by
  intro steps
  induction steps with
  | zero => intro i acc n h1 h2; simpa only [canMissLoop] using h1
  | succ steps ih =>
      intro i acc n h1 h2
      simp only [canMissLoop]
      split
      · exact ih (i + 1) i n (by omega) (by omega)
      · exact h1

lemma raw_imp_perc_miss (p a k : ℕ) (h : 75 ≤ (p : ℚ) / ((p : ℚ) + a + k) * 100) :
    75 ≤ perc_miss p a k := by
  unfold perc_miss
  split
  · exact h
  · norm_num

lemma perc_miss_imp_raw (p a k : ℕ) (h : 75 ≤ perc_miss p a k) :
    75 ≤ (p : ℚ) / ((p : ℚ) + a + k) * 100 ∨ p + a + k = 0 := by
  unfold perc_miss at h
  split at h
  · exact Or.inl h
  · rename_i hz
    exact Or.inr (by omega)

/-! ## Claims about the Threshold Calculator -/

/-- C1 counterexample: at `(present, absent, total) = (1, 1, 1)` we have
`present + absent > total`, yet `attendance_percentage 1 1 1 = 100` while
`attendance_percentage 1 1 (1+1) = 50`, so the claimed min-clamp identity
`attendance_percentage p a t = attendance_percentage p a (p+a)` for
`p + a > t` fails. -/
theorem C1_counterexample :
    ¬ (attendance_percentage 1 1 1 = attendance_percentage 1 1 (1 + 1)) := by
  norm_num [attendance_percentage]

/-- C1 (amended): `attendance_percentage` returns `0` when
`min (present+absent) total = 0` and `100 * present / min (present+absent)
total` otherwise; and whenever `present + absent ≤ total` it agrees with
`attendance_percentage present absent (present+absent)` (for
`present + absent > total` the two may differ, as the counterexample
shows). -/
theorem C1_percentage_formula (p a t : ℕ) :
    (min (p + a) t = 0 → attendance_percentage p a t = 0) ∧
    (min (p + a) t ≠ 0 →
      attendance_percentage p a t = 100 * (p : ℚ) / ((min (p + a) t : ℕ) : ℚ)) ∧
    (p + a ≤ t → attendance_percentage p a t = attendance_percentage p a (p + a)) := by
  refine ⟨fun h => by rw [attendance_percentage, if_pos h], fun h => ?_, fun h => ?_⟩
  · rw [attendance_percentage, if_neg h]; ring
  · rw [attendance_percentage, attendance_percentage, min_eq_left h, min_self]

/-- Witness for C1: a concrete instance with each hypothesis discharged. -/
theorem C1_witness :
    attendance_percentage 3 1 10 = 100 * (3 : ℚ) / ((min (3 + 1) 10 : ℕ) : ℚ) :=
  (C1_percentage_formula 3 1 10).2.1 (by decide)

/-- C2: under `present + absent ≤ total`, `classes_needed_to_reach_75`
returns `some n` exactly for the least `n ≥ 0` with `present + n ≤ total`
and `(present+n)/(present+absent+n) * 100 ≥ 75` (rational arithmetic,
division by zero giving 0), and returns `none` — a distinct non-error
result — when no such `n` exists. -/
theorem C2_min_needed_spec (p a t : ℕ) (h : p + a ≤ t) :
    (∀ n, classes_needed_to_reach_75 p a t = some n →
      (p + n ≤ t ∧ 75 ≤ ((p : ℚ) + n) / ((p : ℚ) + a + n) * 100) ∧
      ∀ m, m < n → ¬(p + m ≤ t ∧ 75 ≤ ((p : ℚ) + m) / ((p : ℚ) + a + m) * 100)) ∧
    (classes_needed_to_reach_75 p a t = none →
      ∀ n, ¬(p + n ≤ t ∧ 75 ≤ ((p : ℚ) + n) / ((p : ℚ) + a + n) * 100)) := by
  have he := needFuel_eq p a t (t + 1) 0 (by omega)
  rw [← classes_needed_to_reach_75] at he
  constructor
  · intro n hn
    rw [hn] at he
    obtain ⟨-, h2, h3, h4⟩ := needFuel_some_spec p a t (t + 1 + 1) 0 n he
    refine ⟨⟨h2, by rwa [perc_need_eq] at h3⟩, fun m hm hc => ?_⟩
    have hlt := h4 m (by omega) hm
    rw [perc_need_eq] at hlt
    exact absurd hc.2 (not_le.mpr hlt)
  · intro hn
    rw [hn] at he
    intro n hc
    have hlt := needFuel_none_spec p a t (t + 1 + 1) 0 he n (by omega) hc.1
    rw [perc_need_eq] at hlt
    exact absurd hc.2 (not_le.mpr hlt)

/-- Witness for C2: with `present = 0, absent = 1, total = 1` the
threshold is unreachable and the function indeed rules out every `n`. -/
theorem C2_witness :
    ¬(0 + 1 ≤ 1 ∧ 75 ≤ ((0 : ℚ) + (1 : ℕ)) / ((0 : ℚ) + 1 + (1 : ℕ)) * 100) :=
  (C2_min_needed_spec 0 1 1 (by decide)).2
    (classes_needed_eval 0 1 1 none (by norm_num [needFuel, perc_need])) 1

/-- C3 counterexample: at `(1, 1, 2)` the function returns `0`, yet
`k = 0` (the only `k ≤ total - present - absent`) has
`1/(1+1+0) * 100 = 50 < 75`: no `k` satisfies the claimed predicate, so
the returned value is not "the largest such `k`". -/
theorem C3_counterexample :
    classes_can_miss 1 1 2 = 0 ∧
    ¬ (75 ≤ (1 : ℚ) / ((1 : ℚ) + 1 + (classes_can_miss 1 1 2 : ℚ)) * 100) := by
  have h : classes_can_miss 1 1 2 = 0 := by
    norm_num [classes_can_miss, canMissLoop, perc_miss]
  refine ⟨h, ?_⟩
  rw [h]
  norm_num

/-- C3 (amended): under `present + absent ≤ total`,
`classes_can_miss` returns a value `≤ total - present - absent` that
dominates every `k` in that range satisfying
`present/(present+absent+k) * 100 ≥ 75` (rational arithmetic, division by
zero giving 0), and the returned value itself satisfies that predicate
*or is 0* (the fallback when no `k` qualifies); in particular
`classes_can_miss 30 5 40 = 5`, the 75% boundary being inclusive. -/
theorem C3_can_miss_spec (p a t : ℕ) (h : p + a ≤ t) :
    classes_can_miss p a t ≤ t - (p + a) ∧
    (∀ k, k ≤ t - (p + a) → 75 ≤ (p : ℚ) / ((p : ℚ) + a + k) * 100 →
      k ≤ classes_can_miss p a t) ∧
    (75 ≤ (p : ℚ) / ((p : ℚ) + a + (classes_can_miss p a t : ℚ)) * 100 ∨
      classes_can_miss p a t = 0) ∧
    classes_can_miss 30 5 40 = 5 := by
  simp only [classes_can_miss]
  refine ⟨?_, ?_, ?_, by norm_num [canMissLoop, perc_miss]⟩
  · exact canMissLoop_ub p a (t - (p + a) + 1) 0 0 (t - (p + a)) (by omega) (by omega)
  · intro k hk hraw
    exact canMissLoop_max p a (t - (p + a) + 1) 0 0 k (by omega) (by omega)
      (raw_imp_perc_miss p a k hraw)
  · have hs := canMissLoop_sat p a (t - (p + a) + 1) 0 0 (Or.inr rfl)
    rcases hs with hs | hs
    · rcases perc_miss_imp_raw p a _ hs with hraw | hz
      · exact Or.inl hraw
      · exact Or.inr (by omega)
    · exact Or.inr hs

/-- Witness for C3: the spec's own scenario, `(30, 5, 40) ↦ 5`. -/
theorem C3_witness : classes_can_miss 30 5 40 = 5 :=
  (C3_can_miss_spec 30 5 40 (by decide)).2.2.2

/-- C9: the two scans use opposite zero-denominator conventions: for any
`total ≥ 1`, `classes_needed_to_reach_75 0 0 total = some 1` (not `some
0`, since the need scan scores a zero denominator as percentage 0),
while `classes_can_miss 0 0 total = 0` because its scan scores a zero
denominator as percentage 100. -/
theorem C9_zero_denominator_conventions (t : ℕ) (h : 1 ≤ t) :
    classes_needed_to_reach_75 0 0 t = some 1 ∧
    classes_can_miss 0 0 t = 0 ∧
    perc_need 0 0 0 = 0 ∧ perc_miss 0 0 0 = 100 := by
  refine ⟨?_, ?_, by norm_num [perc_need], by norm_num [perc_miss]⟩
  · rw [classes_needed_to_reach_75, needLoop]
    rw [if_pos (by omega), if_neg (by norm_num [perc_need])]
    rw [needLoop]
    rw [if_pos (by omega : 0 + (0 + 1) ≤ t), if_pos (by norm_num [perc_need])]
  · obtain ⟨t2, rfl⟩ : ∃ t2, t = t2 + 1 := ⟨t - 1, by omega⟩
    rw [classes_can_miss]
    rw [show t2 + 1 - (0 + 0) + 1 = t2 + 1 + 1 from by omega]
    simp only [canMissLoop]
    rw [if_pos (by norm_num [perc_miss]), if_neg (by norm_num [perc_miss])]

/-- Witness for C9 at `total = 5`. -/
theorem C9_witness :
    classes_needed_to_reach_75 0 0 5 = some 1 ∧
    classes_can_miss 0 0 5 = 0 ∧
    perc_need 0 0 0 = 0 ∧ perc_miss 0 0 0 = 100 :=
  C9_zero_denominator_conventions 5 (by decide)

/-- C10: both scans terminate within an explicit bound: the
`classes_needed_to_reach_75` while-loop finishes within `total + 2` guard
checks (its counter strictly increases and the guard fails once
`present + need > total`), and the `classes_can_miss` scan finishes
within `remaining + 2` checks, i.e. at most `remaining + 1` body
iterations. -/
theorem C10_loops_terminate (p a t : ℕ) :
    needFuel p a t (t + 2) 0 = some (classes_needed_to_reach_75 p a t) ∧
    canMissFuel p a (t - (p + a)) (t - (p + a) + 2) 0 0 = some (classes_can_miss p a t) := by
  constructor
  · have he := needFuel_eq p a t (t + 1) 0 (by omega)
    rw [show t + 1 + 1 = t + 2 from rfl] at he
    rw [he, classes_needed_to_reach_75]
  · have he := canMissFuel_eq p a (t - (p + a)) (t - (p + a) + 1) 0 0 (by omega)
    rw [show t - (p + a) + 1 + 1 = t - (p + a) + 2 from rfl] at he
    rw [he, classes_can_miss]
    norm_num

/-- C8: under `present + absent ≤ total`, `attendance_percentage` is
monotone non-decreasing in `present` and monotone non-increasing in
`absent`. -/
theorem C8_percentage_monotone (p a t : ℕ) (h : p + a ≤ t) :
    attendance_percentage p a t ≤ attendance_percentage (p + 1) a t ∧
    attendance_percentage p (a + 1) t ≤ attendance_percentage p a t := by
  constructor
  · rcases Nat.eq_zero_or_pos (p + a) with hz | hpos
    · obtain ⟨hp, ha⟩ : p = 0 ∧ a = 0 := by omega
      subst hp; subst ha
      have hL : attendance_percentage 0 0 t = 0 := by
        rw [attendance_percentage, if_pos (by simp)]
      rw [hL]
      unfold attendance_percentage
      split
      · exact le_refl 0
      · positivity
    · have hm : min (p + a) t = p + a := min_eq_left h
      have hne : min (p + a) t ≠ 0 := by omega
      have hd2a : p + a ≤ min (p + 1 + a) t := le_min (by omega) h
      have hd2b : min (p + 1 + a) t ≤ p + a + 1 := by
        have := min_le_left (p + 1 + a) t
        omega
      have hne2 : min (p + 1 + a) t ≠ 0 := by omega
      rw [attendance_percentage, attendance_percentage, if_neg hne, if_neg hne2, hm]
      have c1 : (0 : ℚ) < ((p + a : ℕ) : ℚ) := by exact_mod_cast hpos
      have c2 : (0 : ℚ) < ((min (p + 1 + a) t : ℕ) : ℚ) := by
        exact_mod_cast (by omega : 0 < min (p + 1 + a) t)
      rw [div_mul_eq_mul_div, div_mul_eq_mul_div, div_le_div_iff₀ c1 c2]
      have key : p * min (p + 1 + a) t ≤ (p + 1) * (p + a) := by nlinarith
      have keyQ : ((p * min (p + 1 + a) t : ℕ) : ℚ) ≤ (((p + 1) * (p + a) : ℕ) : ℚ) :=
        Nat.cast_le.mpr key
      push_cast at keyQ
      push_cast
      nlinarith
  · rcases Nat.eq_zero_or_pos (p + a) with hz | hpos
    · obtain ⟨hp, ha⟩ : p = 0 ∧ a = 0 := by omega
      subst hp; subst ha
      have hR : attendance_percentage 0 0 t = 0 := by
        rw [attendance_percentage, if_pos (by simp)]
      rw [hR]
      unfold attendance_percentage
      split
      · exact le_refl 0
      · norm_num
    · have hm : min (p + a) t = p + a := min_eq_left h
      have hne : min (p + a) t ≠ 0 := by omega
      have hd2a : p + a ≤ min (p + (a + 1)) t := le_min (by omega) h
      have hne2 : min (p + (a + 1)) t ≠ 0 := by omega
      rw [attendance_percentage, attendance_percentage, if_neg hne, if_neg hne2, hm]
      have c1 : (0 : ℚ) < ((p + a : ℕ) : ℚ) := by exact_mod_cast hpos
      have c2 : ((p + a : ℕ) : ℚ) ≤ ((min (p + (a + 1)) t : ℕ) : ℚ) := Nat.cast_le.mpr hd2a
      gcongr

/-- Witness for C8 at `(3, 1, 10)`. -/
theorem C8_witness :
    attendance_percentage 3 1 10 ≤ attendance_percentage (3 + 1) 1 10 ∧
    attendance_percentage 3 (1 + 1) 10 ≤ attendance_percentage 3 1 10 :=
  C8_percentage_monotone 3 1 10 (by decide)

/-! ## Helper lemmas: ledger -/

lemma recordPresent_inv (total : Str → ℕ) (st : Str → ℕ × ℕ) (s : Str)
    (h : LedgerInv total st) : LedgerInv total (recordPresent total st s) := by
  intro x
  unfold recordPresent
  split
  · rename_i hlt
    by_cases hx : x = s
    · subst hx
      rw [Function.update_same]
      have := h x
      simp only
      omega
    · rw [Function.update_noteq hx]
      exact h x
  · exact h x

lemma recordAbsent_inv (total : Str → ℕ) (st : Str → ℕ × ℕ) (s : Str)
    (h : LedgerInv total st) : LedgerInv total (recordAbsent total st s) := by
  intro x
  unfold recordAbsent
  split
  · rename_i hlt
    by_cases hx : x = s
    · subst hx
      rw [Function.update_same]
      have := h x
      simp only
      omega
    · rw [Function.update_noteq hx]
      exact h x
  · exact h x

lemma foldl_recordPresent_inv (total : Str → ℕ) :
    ∀ (l : List Str) (st : Str → ℕ × ℕ), LedgerInv total st →
      LedgerInv total (l.foldl (recordPresent total) st) := by
  intro l
  induction l with
  | nil => intro st h; exact h
  | cons s l ih =>
      intro st h
      exact ih (recordPresent total st s) (recordPresent_inv total st s h)

lemma foldl_recordAbsent_inv (total : Str → ℕ) :
    ∀ (l : List Str) (st : Str → ℕ × ℕ), LedgerInv total st →
      LedgerInv total (l.foldl (recordAbsent total) st) := by
  intro l
  induction l with
  | nil => intro st h; exact h
  | cons s l ih =>
      intro st h
      exact ih (recordAbsent total st s) (recordAbsent_inv total st s h)

lemma applyOp_inv (total : Str → ℕ) (st : Str → ℕ × ℕ) (op : LedgerOp)
    (h : LedgerInv total st) : LedgerInv total (applyOp total st op) := by
  cases op with
  | markPresent s => exact recordPresent_inv total st s h
  | markAbsent s => exact recordAbsent_inv total st s h
  | bulkPresent l => exact foldl_recordPresent_inv total l st h
  | bulkAbsent l => exact foldl_recordAbsent_inv total l st h
  | resetAll => intro x; simp [applyOp]

lemma applyOps_inv (total : Str → ℕ) :
    ∀ (ops : List LedgerOp) (st : Str → ℕ × ℕ), LedgerInv total st →
      LedgerInv total (applyOps total st ops) := by
  intro ops
  induction ops with
  | nil => intro st h; exact h
  | cons op ops ih =>
      intro st h
      exact ih (applyOp total st op) (applyOp_inv total st op h)

/-! ## Claims about the Attendance Ledger -/

/-- C6: every ledger mutation preserves `present + absent ≤ total` per
subject: a capped single increment applies only below the cap and is a
state-preserving no-op at or above it, and any sequence of single
increments, bulk markings (each subject capped independently) and resets
started from an invariant-satisfying state stays invariant-satisfying. -/
theorem C6_ledger_invariant (total : Str → ℕ) (st : Str → ℕ × ℕ)
    (h : LedgerInv total st) :
    (∀ s, total s ≤ (st s).1 + (st s).2 →
      recordPresent total st s = st ∧ recordAbsent total st s = st) ∧
    (∀ s, (st s).1 + (st s).2 < total s →
      (recordPresent total st s) s = ((st s).1 + 1, (st s).2) ∧
      (recordAbsent total st s) s = ((st s).1, (st s).2 + 1)) ∧
    (∀ ops : List LedgerOp, LedgerInv total (applyOps total st ops)) := by
  refine ⟨fun s hs => ?_, fun s hs => ?_, fun ops => applyOps_inv total ops st h⟩
  · constructor
    · unfold recordPresent
      rw [if_neg (by omega)]
    · unfold recordAbsent
      rw [if_neg (by omega)]
  · constructor
    · unfold recordPresent
      rw [if_pos hs, Function.update_same]
    · unfold recordAbsent
      rw [if_pos hs, Function.update_same]

/-- Witness for C6: from the all-zero state with cap 2 everywhere, a
bulk marking that over-asks (three increments of the same subject) plus a
single increment still lands in an invariant-satisfying state. -/
theorem C6_witness :
    LedgerInv (fun _ => 2)
      (applyOps (fun _ => 2) (fun _ => (0, 0))
        [LedgerOp.bulkPresent [("M").data, ("M").data, ("M").data],
         LedgerOp.markAbsent (("M").data)]) :=
  (C6_ledger_invariant (fun _ => 2) (fun _ => (0, 0)) (fun _ => by norm_num)).2.2 _

/-! ## Claims about the Schedule Deriver -/

/-- C7: the subject universe is sorted (strictly, hence the labels are
distinct) and contains exactly the stripped cell labels that are
non-empty and not the case-insensitive `break` sentinel. -/
theorem C7_subject_universe (tt : List TRow) :
    List.Sorted (· < ·) (subjectsOf tt) ∧
    ∀ x, x ∈ subjectsOf tt ↔
      (x ≠ [] ∧ pyLower x ≠ ("break").data ∧ ∃ r ∈ tt, ∃ c ∈ r.cells, pyStrip c = x) := by
  constructor
  · exact Finset.sort_sorted_lt _
  · intro x
    simp only [subjectsOf, Finset.mem_sort, List.mem_toFinset, List.mem_filter,
      List.mem_map, List.mem_flatMap, Bool.not_eq_true', decide_eq_false_iff_not,
      skippedCell, not_or]
    constructor
    · rintro ⟨⟨c, ⟨r, hr, hc⟩, rfl⟩, hne, hbr⟩
      exact ⟨hne, hbr, r, hr, c, hc, rfl⟩
    · rintro ⟨hne, hbr, r, hr, c, hc, rfl⟩
      exact ⟨⟨c, ⟨r, hr, hc⟩, rfl⟩, hne, hbr⟩

/-! ## Helper lemmas: lab-session scan vs maximal runs -/

lemma labScan_filter_eq (s : Str) (hlab : isLab s = true) (hne : s ≠ [])
    (hbr : pyLower s ≠ ("break").data) :
    ∀ (cells : List Str) (idx : ℕ) (prev : Option Str),
      ((labScan cells prev idx).filter (fun p => p.1 = s)).map Prod.snd
        = runStartsAux s cells idx (decide (prev = some s)) := by
  intro cells
  induction cells with
  | nil =>
      intro idx prev
      simp [labScan, runStartsAux]
  | cons c rest ih =>
      intro idx prev
      by_cases h1 : skippedCell (pyStrip c)
      · have hcs : pyStrip c ≠ s := by
          intro he
          rw [he] at h1
          rcases h1 with h1 | h1
          · exact hne h1
          · exact hbr h1
        rw [show labScan (c :: rest) prev idx = labScan rest none (idx + 1) from by
              simp only [labScan]; rw [if_pos h1]]
        rw [ih (idx + 1) none]
        have d0 : (decide ((none : Option Str) = some s)) = false := by simp
        rw [d0]
        simp only [runStartsAux]
        rw [if_neg hcs]
      · by_cases h2 : isLab (pyStrip c) = true
        · by_cases hc : pyStrip c = s
          · have dt : (decide ((some (pyStrip c) : Option Str) = some s)) = true := by
              simp [hc]
            by_cases h3 : prev = some (pyStrip c)
            · rw [show labScan (c :: rest) prev idx
                    = labScan rest (some (pyStrip c)) (idx + 1) from by
                  simp only [labScan]; rw [if_neg h1, if_pos h2, if_pos h3]]
              rw [ih (idx + 1) (some (pyStrip c)), dt]
              have dp : (decide (prev = some s)) = true := by
                rw [h3, hc]; simp
              simp only [runStartsAux]
              rw [if_pos hc, dp]
              simp
            · rw [show labScan (c :: rest) prev idx
                    = (pyStrip c, idx) :: labScan rest (some (pyStrip c)) (idx + 1) from by
                  simp only [labScan]; rw [if_neg h1, if_pos h2, if_neg h3]]
              rw [List.filter_cons_of_pos (by simp [hc]), List.map_cons]
              rw [ih (idx + 1) (some (pyStrip c)), dt]
              have dp : (decide (prev = some s)) = false := by
                rw [hc] at h3
                simp [h3]
              simp only [runStartsAux]
              rw [if_pos hc, dp]
              simp
          · have df : (decide ((some (pyStrip c) : Option Str) = some s)) = false := by
              simp [hc]
            by_cases h3 : prev = some (pyStrip c)
            · rw [show labScan (c :: rest) prev idx
                    = labScan rest (some (pyStrip c)) (idx + 1) from by
                  simp only [labScan]; rw [if_neg h1, if_pos h2, if_pos h3]]
              rw [ih (idx + 1) (some (pyStrip c)), df]
              simp only [runStartsAux]
              rw [if_neg hc]
            · rw [show labScan (c :: rest) prev idx
                    = (pyStrip c, idx) :: labScan rest (some (pyStrip c)) (idx + 1) from by
                  simp only [labScan]; rw [if_neg h1, if_pos h2, if_neg h3]]
              rw [List.filter_cons_of_neg (by simp [hc])]
              rw [ih (idx + 1) (some (pyStrip c)), df]
              simp only [runStartsAux]
              rw [if_neg hc]
        · have hcs : pyStrip c ≠ s := by
            intro he
            rw [he] at h2
            exact h2 hlab
          rw [show labScan (c :: rest) prev idx
                = labScan rest (some (pyStrip c)) (idx + 1) from by
              simp only [labScan]; rw [if_neg h1, if_neg h2]]
          rw [ih (idx + 1) (some (pyStrip c))]
          have df : (decide ((some (pyStrip c) : Option Str) = some s)) = false := by
            simp [hcs]
          rw [df]
          simp only [runStartsAux]
          rw [if_neg hcs]

lemma rowLabCols_eq (s : Str) (hlab : isLab s = true) (hne : s ≠ [])
    (hbr : pyLower s ≠ ("break").data) (cells : List Str) :
    rowLabCols s cells = runStarts s cells := by
  rw [rowLabCols, runStarts, labScan_filter_eq s hlab hne hbr cells 1 none]
  congr 1

lemma runStartsAux_lb (s : Str) :
    ∀ cells idx b j, j ∈ runStartsAux s cells idx b → idx ≤ j := by
  intro cells
  induction cells with
  | nil => intro idx b j hj; simp [runStartsAux] at hj
  | cons c rest ih =>
      intro idx b j hj
      simp only [runStartsAux] at hj
      by_cases hc : pyStrip c = s
      · rw [if_pos hc] at hj
        cases b with
        | true =>
            simp only [if_pos rfl] at hj
            exact le_trans (by omega) (ih (idx + 1) true j hj)
        | false =>
            simp only [Bool.false_eq_true, if_neg (by simp : ¬ (false = true))] at hj
            rcases List.mem_cons.mp hj with rfl | hj
            · exact le_refl j
            · exact le_trans (by omega) (ih (idx + 1) true j hj)
      · rw [if_neg hc] at hj
        exact le_trans (by omega) (ih (idx + 1) false j hj)

lemma runStartsAux_nodup (s : Str) :
    ∀ cells idx b, (runStartsAux s cells idx b).Nodup := by
  intro cells
  induction cells with
  | nil => intro idx b; simp [runStartsAux]
  | cons c rest ih =>
      intro idx b
      simp only [runStartsAux]
      by_cases hc : pyStrip c = s
      · rw [if_pos hc]
        cases b with
        | true => exact ih (idx + 1) true
        | false =>
            simp only [Bool.false_eq_true, if_neg (by simp : ¬ (false = true))]
            refine List.nodup_cons.mpr ⟨fun hmem => ?_, ih (idx + 1) true⟩
            have := runStartsAux_lb s rest (idx + 1) true idx hmem
            omega
      · rw [if_neg hc]
        exact ih (idx + 1) false

lemma sum_map_const {α : Type} (l : List α) (c : ℕ) :
    (l.map (fun _ => c)).sum = l.length * c := by
  induction l with
  | nil => simp
  | cons x l ih => simp [ih, Nat.succ_mul, Nat.add_comm]

lemma labList_nodup (s : Str) (hlab : isLab s = true) (hne : s ≠ [])
    (hbr : pyLower s ≠ ("break").data) :
    ∀ tt : List TRow, (tt.map (fun r => r.day)).Nodup →
      (tt.flatMap (fun r => (rowLabCols s r.cells).map (fun j => (r.day, j)))).Nodup := by
  intro tt
  induction tt with
  | nil => intro _; simp
  | cons r tt ih =>
      intro h
      rw [List.map_cons, List.nodup_cons] at h
      obtain ⟨hnotin, htail⟩ := h
      rw [List.flatMap_cons]
      refine List.Nodup.append ?_ (ih htail) ?_
      · refine List.Nodup.map ?_ ?_
        · intro j1 j2 hj
          exact (Prod.mk.injEq _ _ _ _).mp hj |>.2
        · rw [rowLabCols_eq s hlab hne hbr]
          exact runStartsAux_nodup s r.cells 1 false
      · intro x hx1 hx2
        obtain ⟨j, -, rfl⟩ := List.mem_map.mp hx1
        obtain ⟨r2, hr2, hx2⟩ := List.mem_flatMap.mp hx2
        obtain ⟨j2, -, heq⟩ := List.mem_map.mp hx2
        have : r2.day = r.day := ((Prod.mk.injEq _ _ _ _).mp heq).1
        exact hnotin (List.mem_map.mpr ⟨r2, hr2, this⟩)

lemma labList_sum (s : Str) (wc : Str → ℕ) (hlab : isLab s = true) (hne : s ≠ [])
    (hbr : pyLower s ≠ ("break").data) :
    ∀ tt : List TRow,
      ((tt.flatMap (fun r => (rowLabCols s r.cells).map (fun j => (r.day, j)))).map
          (fun p => wc p.1)).sum
        = (tt.map (fun r => (runStarts s r.cells).length * wc r.day)).sum := by
  intro tt
  induction tt with
  | nil => simp
  | cons r tt ih =>
      rw [List.flatMap_cons, List.map_append, List.sum_append, ih, List.map_cons,
        List.sum_cons]
      congr 1
      rw [List.map_map]
      have : ((fun p : Str × ℕ => wc p.1) ∘ fun j => (r.day, j)) = fun _ => wc r.day := rfl
      rw [this, sum_map_const, rowLabCols_eq s hlab hne hbr]

/-- C4: for a lab subject (label containing `lab` case-insensitively,
non-empty, not the break sentinel) on a timetable whose weekday rows are
distinct, `subject_total_classes` equals the sum, over each row, of the
number of *maximal runs* of consecutive cells carrying that label times
the teaching-occurrence count of that row's weekday — i.e. one session
per merged run, not per period. -/
theorem C4_lab_totals (tt : List TRow) (wc : Str → ℕ) (s : Str)
    (hlab : isLab s = true) (hne : s ≠ []) (hbr : pyLower s ≠ ("break").data)
    (hdays : (tt.map (fun r => r.day)).Nodup) :
    subject_total_classes tt wc s
      = (tt.map (fun r => (runStarts s r.cells).length * wc r.day)).sum := by
  rw [subject_total_classes, if_pos hlab, subject_lab_sessions]
  rw [List.sum_toFinset _ (labList_nodup s hlab hne hbr tt hdays)]
  exact labList_sum s wc hlab hne hbr tt

/-- Witness for C4: the spec's scenario — `Physics Lab` in periods 2–3 of
the Monday row only, 10 teaching Mondays — yields exactly 10 expected
classes (one merged session per Monday). -/
theorem C4_witness :
    subject_total_classes
      [⟨("Monday").data,
        [("").data, ("Physics Lab").data, ("Physics Lab").data, ("Maths").data]⟩]
      (fun d => if d = ("Monday").data then 10 else 0) (("Physics Lab").data) = 10 := by
  rw [C4_lab_totals _ _ _ (by decide) (by decide) (by decide) (by decide)]
  decide

/-- C5 counterexample: `TCS-502 Lab` is both a lab subject and a
`TCS-502`-prefixed one; its schedule-derived (session-based) count on a
one-cell Monday timetable with 3 teaching Mondays is 3, and
`subject_total_classes` returns 3, not the doubled 6 the claim requires
for *every* subject with the configured multiplier. -/
theorem C5_counterexample :
    isTCS502 (("TCS-502 Lab").data) = true ∧
    isLab (("TCS-502 Lab").data) = true ∧
    subject_total_classes [⟨("Monday").data, [("TCS-502 Lab").data]⟩]
        (fun d => if d = ("Monday").data then 3 else 0) (("TCS-502 Lab").data)
      ≠ 2 * (subject_lab_sessions [⟨("Monday").data, [("TCS-502 Lab").data]⟩]
          (("TCS-502 Lab").data)).sum
          (fun p => if p.1 = ("Monday").data then 3 else 0) := by
  exact ⟨by decide, by decide, by decide⟩

/-- C5 (amended): the `TCS-502` doubling is applied as a final scalar
multiply, but only to non-lab subjects: for a subject whose label
(spaces removed, upper-cased) starts with `TCS-502` and is not a lab,
the total is twice the day-set-derived count; lab subjects never get the
multiplier (see the counterexample). -/
theorem C5_multiplier (tt : List TRow) (wc : Str → ℕ) (s : Str)
    (hnl : isLab s = false) (htcs : isTCS502 s = true) :
    subject_total_classes tt wc s = 2 * (subject_days tt s).sum wc := by
  rw [subject_total_classes, if_neg (by simp [hnl]), if_pos htcs]
  exact Nat.mul_comm _ 2

/-- Witness for C5: a non-lab `TCS-502` subject meeting every Monday,
with 4 teaching Mondays, gets total `2 * 4`. -/
theorem C5_witness :
    subject_total_classes [⟨("Monday").data, [("TCS-502").data]⟩]
      (fun d => if d = ("Monday").data then 4 else 0) (("TCS-502").data) = 2 * 4 := by
  rw [C5_multiplier _ _ _ (by decide) (by decide)]
  decide
